import Mathlib

/-
  Verification development for a backgammon rules engine
  (board representation, single-move application, recursive move-sequence
  enumeration, optimal-sequence selection, turn application, dice roller).

  The board is a sequence of signed integer counts: the sign encodes the
  owning side and the magnitude the number of checkers present; 0 is empty.
  The jail maps each side to a signed count (the moving side's sign
  convention is used for its jail entry as well).

  Fallible operations return `Except Err`; the `Err` constructors mirror
  the distinct exception classes of the source (the player-facing
  IllegalMoveException, the internal ValueError raised by the
  increment/decrement helpers, the ZeroDivisionError that `direction`
  can raise, and IndexError from sequence indexing).
-/

inductive Err where
  | illegalMove
  | valueError
  | zeroDivision
  | indexError
deriving DecidableEq, Repr

inductive Side where
  | white
  | black
deriving DecidableEq, Repr

/-- Integer token of the side: WHITE = 1, BLACK = -1. -/
def Side.token : Side → Int
  | .white => 1
  | .black => -1

/-- The side's direction of travel equals its token. -/
def Side.direction (s : Side) : Int := s.token

/-- Home index: destination for bearing off. WHITE = 25, BLACK = 0. -/
def Side.home : Side → Int
  | .white => 25
  | .black => 0

/-- Jail start (entry) index. WHITE = 0, BLACK = 25. -/
def Side.jailStart : Side → Int
  | .white => 0
  | .black => 25

/-- Capping rule clamping an overshooting destination to home:
`min home x` for WHITE, `max home x` for BLACK. -/
def Side.capToHome : Side → Int → Int
  | .white, x => min 25 x
  | .black, x => max 0 x

/-- The precomputed path `range(jail_start + direction, home + direction,
direction)`: `[1..25]` for WHITE and `[24..0]` for BLACK (25 entries each). -/
def Side.progression : Side → List Int
  | .white => (List.range 25).map (fun k => (k : Int) + 1)
  | .black => (List.range 25).map (fun k => 24 - (k : Int))

def Side.otherSide : Side → Side
  | .white => .black
  | .black => .white

/-- `owns_spot`: the value is nonzero and its sign (`v / |v|` in the source)
matches the side's token. -/
def Side.ownsSpot (s : Side) (v : Int) : Bool :=
  v != 0 && v.sign == s.token

def START_FROM_JAIL_FLAG : Int := -1

def DICE_CHOICES : List Int := [1, 2, 3, 4, 5, 6]

structure MoveTuple where
  side : Side
  start : Int
  dieRoll : Int
deriving DecidableEq, Repr

def MoveTuple.startsInJail (m : MoveTuple) : Bool :=
  m.start == START_FROM_JAIL_FLAG

def MoveTuple.effectiveStart (m : MoveTuple) : Int :=
  if m.startsInJail then m.side.jailStart else m.start

def MoveTuple.signedRoll (m : MoveTuple) : Int :=
  m.dieRoll * m.side.direction

def MoveTuple.effectiveEnd (m : MoveTuple) : Int :=
  m.side.capToHome (m.effectiveStart + m.signedRoll)

/-- `direction` computes `dist / abs(dist)`; dividing by zero when
`effective_end == effective_start` is modelled as `none`. -/
def MoveTuple.direction? (m : MoveTuple) : Option Int :=
  let dist := m.effectiveEnd - m.effectiveStart
  if dist = 0 then none else some dist.sign

def MoveTuple.effectiveDistance (m : MoveTuple) : Int :=
  ((m.effectiveEnd - m.effectiveStart).natAbs : Int)

def MoveTuple.usesWholeRoll (m : MoveTuple) : Bool :=
  m.effectiveDistance == m.dieRoll

/-- The jail mapping, one signed count per side (absent keys read as 0). -/
structure Jail where
  white : Int := 0
  black : Int := 0
deriving DecidableEq, Repr

def Jail.get (j : Jail) : Side → Int
  | .white => j.white
  | .black => j.black

def Jail.set (j : Jail) : Side → Int → Jail
  | .white, v => { j with white := v }
  | .black, v => { j with black := v }

def jail0 : Jail := {}

/-- Resolve a Python sequence index: nonnegative indices must be below the
length, negative indices wrap from the end, anything else is IndexError. -/
def pyIndex (len : Nat) (i : Int) : Option Nat :=
  if 0 ≤ i then
    if i < (len : Int) then some i.toNat else none
  else
    if -(len : Int) ≤ i then some ((len : Int) + i).toNat else none

def pyGet (l : List Int) (i : Int) : Except Err Int :=
  match pyIndex l.length i with
  | none => .error .indexError
  | some n =>
    match l.get? n with
    | none => .error .indexError
    | some v => .ok v

def pySet (l : List Int) (i : Int) (v : Int) : Except Err (List Int) :=
  match pyIndex l.length i with
  | none => .error .indexError
  | some n => .ok (l.set n v)

def getNumberPresent (v : Int) : Nat := v.natAbs

def incrementForSide (v : Int) (s : Side) : Except Err Int :=
  if s.otherSide.ownsSpot v then .error .valueError
  else .ok (v + 1 * s.token)

def decrementForSide (v : Int) (s : Side) : Except Err Int :=
  if !s.ownsSpot v then .error .valueError
  else .ok (v - 1 * s.token)

def isStompable (v : Int) : Bool := v < 2

/-- Scan of `spots[i] for i in side.progression[:-7]`, short-circuiting like
Python's `all` over a lazy generator. -/
def allInLastQuarterAux (spots : List Int) (side : Side) : List Int → Except Err Bool
  | [] => .ok true
  | i :: rest =>
    match pyGet spots i with
    | .error e => .error e
    | .ok v =>
      if side.ownsSpot v then
        if getNumberPresent v = 0 then allInLastQuarterAux spots side rest
        else .ok false
      else allInLastQuarterAux spots side rest

def allInLastQuarter (spots : List Int) (side : Side) : Except Err Bool :=
  allInLastQuarterAux spots side
    (side.progression.take (side.progression.length - 7))

/-- Step of `_make_move` commented "decrement starting point". -/
def decrementOrigin (spots : List Int) (jail : Jail) (move : MoveTuple) :
    Except Err (List Int × Jail) :=
  if !move.startsInJail then
    match pyGet spots move.effectiveStart with
    | .error e => .error e
    | .ok v =>
      match decrementForSide v move.side with
      | .error e => .error e
      | .ok w =>
        match pySet spots move.effectiveStart w with
        | .error e => .error e
        | .ok spots2 => .ok (spots2, jail)
  else
    match decrementForSide (jail.get move.side) move.side with
    | .error e => .error e
    | .ok w => .ok (spots, jail.set move.side w)

/-- Step of `_make_move` commented "handle any stomping". -/
def handleStomp (spots : List Int) (jail : Jail) (move : MoveTuple) :
    Except Err (List Int × Jail) :=
  match pyGet spots move.effectiveEnd with
  | .error e => .error e
  | .ok v =>
    if move.side.otherSide.ownsSpot v then
      if !isStompable v then .error .illegalMove
      else
        match decrementForSide v move.side.otherSide with
        | .error e => .error e
        | .ok w =>
          match pySet spots move.effectiveEnd w with
          | .error e => .error e
          | .ok spots2 =>
            match incrementForSide (jail.get move.side.otherSide) move.side.otherSide with
            | .error e => .error e
            | .ok jw => .ok (spots2, jail.set move.side.otherSide jw)
    else .ok (spots, jail)

/-- Final step of `_make_move`: increment the destination for the mover. -/
def incrementDestination (spots : List Int) (jail : Jail) (move : MoveTuple) :
    Except Err (List Int × Jail) :=
  match pyGet spots move.effectiveEnd with
  | .error e => .error e
  | .ok v =>
    match incrementForSide v move.side with
    | .error e => .error e
    | .ok w =>
      match pySet spots move.effectiveEnd w with
      | .error e => .error e
      | .ok spots2 => .ok (spots2, jail)

/-- `_make_move`: direction check (which may divide by zero), bearing-off
check, origin decrement, stomp handling, destination increment. -/
def makeMove (spots : List Int) (jail : Jail) (move : MoveTuple) :
    Except Err (List Int × Jail) :=
  match move.direction? with
  | none => .error .zeroDivision
  | some d =>
    if d ≠ move.side.direction then .error .illegalMove
    else
      match (if move.effectiveEnd = move.side.home
             then allInLastQuarter spots move.side else .ok true) with
      | .error e => .error e
      | .ok false => .error .illegalMove
      | .ok true =>
        match decrementOrigin spots jail move with
        | .error e => .error e
        | .ok (spots1, jail1) =>
          match handleStomp spots1 jail1 move with
          | .error e => .error e
          | .ok (spots2, jail2) => incrementDestination spots2 jail2 move

/-- `_get_die_and_other_dice`: each die instance paired with the rest. -/
def getDieAndOtherDice : List Int → List (Int × List Int)
  | [] => []
  | d :: rest =>
    (d, rest) :: (getDieAndOtherDice rest).map (fun p => (p.1, d :: p.2))

/-- `tuple(i for i, spot in zip(side.progression[-1:], spots)
if side.owns_spot(spot))`: note `[-1:]` keeps only the final path entry. -/
def startSpotsOf (spots : List Int) (side : Side) : List Int :=
  ((side.progression.drop (side.progression.length - 1)).zip spots).filterMap
    (fun p => if side.ownsSpot p.2 then some p.1 else none)

/-- Recursion of `_get_all_move_sets`, indexed by fuel. Every recursive call
removes exactly one die, so fuel equal to the dice count always suffices;
the fuel-exhausted branch is unreachable from `getAllMoveSets` (see
`gams_fuel_stable`). Only IllegalMove is caught inside the loops; every
other error aborts the whole enumeration, as uncaught exceptions do. -/
def gams : Nat → List Int → Jail → Side → List Int → Except Err (List (List MoveTuple))
  | _, _, _, _, [] => .ok [[]]
  | 0, _, _, _, _ :: _ => .ok []
  | Nat.succ n, spots, jail, side, d :: ds =>
    if startSpotsOf spots side = [] then .ok [[]]
    else
      (startSpotsOf spots side).foldlM (fun acc startSpot =>
        (getDieAndOtherDice (d :: ds)).foldlM (fun acc2 p =>
          let move : MoveTuple := ⟨side, startSpot, p.1⟩
          match makeMove spots jail move with
          | .error .illegalMove => .ok acc2
          | .error e => .error e
          | .ok (nextSpots, nextJail) =>
            match gams n nextSpots nextJail side p.2 with
            | .error e => .error e
            | .ok moveSets => .ok (acc2 ++ moveSets.map (fun ms => move :: ms)))
          acc)
        []

/-- `_get_all_move_sets`. -/
def getAllMoveSets (spots : List Int) (jail : Jail) (side : Side)
    (remainingDice : List Int) : Except Err (List (List MoveTuple)) :=
  gams remainingDice.length spots jail side remainingDice

/-- Rating of a sequence: sum of its moves' effective distances. -/
def rating (moveSet : List MoveTuple) : Int :=
  moveSet.foldl (fun acc mv => acc + mv.effectiveDistance) 0

/-- Python `max` over a sequence of ints; empty input raises ValueError. -/
def pyMax : List Int → Except Err Int
  | [] => .error .valueError
  | x :: xs => .ok (xs.foldl max x)

/-- `_get_all_optimal_moves`: the set of enumerated sequences achieving the
maximum rating (the Python set is identified with its membership list). -/
def getAllOptimalMoves (spots : List Int) (jail : Jail) (side : Side)
    (rolledDice : List Int) : Except Err (List (List MoveTuple)) :=
  match getAllMoveSets spots jail side rolledDice with
  | .error e => .error e
  | .ok allLegalMoveSets =>
    let ratings := allLegalMoveSets.map rating
    match pyMax ratings with
    | .error e => .error e
    | .ok bestRating =>
      .ok ((allLegalMoveSets.zip ratings).filterMap
        (fun p => if p.2 = bestRating then some p.1 else none))

/-- The final loop of `play`: apply each move in order, threading state. -/
def applyMoves (spots : List Int) (jail : Jail) (moveSet : List MoveTuple) :
    Except Err (List Int × Jail) :=
  moveSet.foldlM (fun st mv => makeMove st.1 st.2 mv) (spots, jail)

/-- `play`. -/
def play (spots : List Int) (jail : Jail) (side : Side)
    (moveSet : List MoveTuple) (rolledDice : List Int) :
    Except Err (List Int × Jail) :=
  if moveSet.all MoveTuple.usesWholeRoll then applyMoves spots jail moveSet
  else
    match getAllOptimalMoves spots jail side rolledDice with
    | .error e => .error e
    | .ok optimalMoves =>
      if moveSet ∈ optimalMoves then applyMoves spots jail moveSet
      else .error .illegalMove

/-- `roll_dice`, parameterized by the two values drawn from DICE_CHOICES:
doubles are repeated, then the tuple is sorted ascending. -/
def rollDice (a b : Int) : List Int :=
  List.insertionSort (· ≤ ·) (if a = b then [a, b, a, b] else [a, b])

/-- Number of checkers a side has at a single spot value. -/
def spotCountFor (s : Side) (v : Int) : Nat :=
  if s.ownsSpot v then v.natAbs else 0

/-- Number of checkers a side has on the board. -/
def boardCount (s : Side) (spots : List Int) : Nat :=
  (spots.map (spotCountFor s)).sum

/-- Number of checkers a side has in jail. -/
def jailCount (s : Side) (j : Jail) : Nat := (j.get s).natAbs

/-- Total checker count of a side: board plus jail. -/
def totalCount (s : Side) (spots : List Int) (j : Jail) : Nat :=
  boardCount s spots + jailCount s j

lemma Side.otherSide_ne (s : Side) : s.otherSide ≠ s := by
  cases s <;> decide

lemma Side.otherSide_otherSide (s : Side) : s.otherSide.otherSide = s := by
  cases s <;> rfl

lemma ownsSpot_iff_white (v : Int) : Side.white.ownsSpot v = true ↔ 0 < v := by
  simp only [Side.ownsSpot, Side.token, Bool.and_eq_true, bne_iff_ne, ne_eq, beq_iff_eq,
    Int.sign_eq_one_iff_pos]
  omega

lemma ownsSpot_iff_black (v : Int) : Side.black.ownsSpot v = true ↔ v < 0 := by
  simp only [Side.ownsSpot, Side.token, Bool.and_eq_true, bne_iff_ne, ne_eq, beq_iff_eq,
    Int.sign_eq_neg_one_iff_neg]
  omega

lemma spotCountFor_eq_white (v : Int) :
    spotCountFor .white v = if 0 < v then v.natAbs else 0 := by
  unfold spotCountFor
  by_cases h : (0 : Int) < v
  · rw [if_pos h, if_pos ((ownsSpot_iff_white v).mpr h)]
  · rw [if_neg h, if_neg (by rw [ownsSpot_iff_white]; exact h)]

lemma spotCountFor_eq_black (v : Int) :
    spotCountFor .black v = if v < 0 then v.natAbs else 0 := by
  unfold spotCountFor
  by_cases h : v < (0 : Int)
  · rw [if_pos h, if_pos ((ownsSpot_iff_black v).mpr h)]
  · rw [if_neg h, if_neg (by rw [ownsSpot_iff_black]; exact h)]

lemma decrementForSide_ok {v w : Int} {s : Side} (h : decrementForSide v s = .ok w) :
    s.ownsSpot v = true ∧ w = v - s.token := by
  unfold decrementForSide at h
  cases hb : s.ownsSpot v with
  | false => rw [hb] at h; exact absurd h (by simp)
  | true =>
    rw [hb] at h
    simp only [Bool.not_true, if_neg (by simp : ¬ (false = true))] at h
    refine ⟨rfl, ?_⟩
    injection h with h1
    omega

lemma incrementForSide_ok {v w : Int} {s : Side} (h : incrementForSide v s = .ok w) :
    s.otherSide.ownsSpot v = false ∧ w = v + s.token := by
  unfold incrementForSide at h
  cases hb : s.otherSide.ownsSpot v with
  | true => rw [hb] at h; exact absurd h (by simp)
  | false =>
    rw [hb] at h
    simp only [if_neg (by simp : ¬ (false = true))] at h
    refine ⟨rfl, ?_⟩
    injection h with h1
    omega

lemma spotCount_decrement {v w : Int} {s : Side} (h : decrementForSide v s = .ok w) :
    spotCountFor s v = spotCountFor s w + 1 ∧
    spotCountFor s.otherSide v = 0 ∧ spotCountFor s.otherSide w = 0 := by
  obtain ⟨hown, rfl⟩ := decrementForSide_ok h
  cases s
  · rw [ownsSpot_iff_white] at hown
    simp only [Side.otherSide, Side.token, spotCountFor_eq_white, spotCountFor_eq_black]
    refine ⟨?_, ?_, ?_⟩ <;> split_ifs <;> omega
  · rw [ownsSpot_iff_black] at hown
    simp only [Side.otherSide, Side.token, spotCountFor_eq_white, spotCountFor_eq_black]
    refine ⟨?_, ?_, ?_⟩ <;> split_ifs <;> omega

lemma spotCount_increment {v w : Int} {s : Side} (h : incrementForSide v s = .ok w) :
    spotCountFor s w = spotCountFor s v + 1 ∧
    spotCountFor s.otherSide v = 0 ∧ spotCountFor s.otherSide w = 0 := by
  obtain ⟨hnot, rfl⟩ := incrementForSide_ok h
  cases s
  · have hge : ¬ v < 0 := fun hh =>
      absurd ((ownsSpot_iff_black v).mpr hh) (by simp [Side.otherSide] at hnot; simp [hnot])
    simp only [Side.otherSide, Side.token, spotCountFor_eq_white, spotCountFor_eq_black]
    refine ⟨?_, ?_, ?_⟩ <;> split_ifs <;> omega
  · have hle : ¬ 0 < v := fun hh =>
      absurd ((ownsSpot_iff_white v).mpr hh) (by simp [Side.otherSide] at hnot; simp [hnot])
    simp only [Side.otherSide, Side.token, spotCountFor_eq_white, spotCountFor_eq_black]
    refine ⟨?_, ?_, ?_⟩ <;> split_ifs <;> omega

lemma natAbs_decrement {v w : Int} {s : Side} (h : decrementForSide v s = .ok w) :
    v.natAbs = w.natAbs + 1 := by
  obtain ⟨hown, rfl⟩ := decrementForSide_ok h
  cases s
  · rw [ownsSpot_iff_white] at hown; simp only [Side.token]; omega
  · rw [ownsSpot_iff_black] at hown; simp only [Side.token]; omega

lemma natAbs_increment {v w : Int} {s : Side} (h : incrementForSide v s = .ok w) :
    w.natAbs = v.natAbs + 1 := by
  obtain ⟨hnot, rfl⟩ := incrementForSide_ok h
  cases s
  · have hge : ¬ v < 0 := fun hh =>
      absurd ((ownsSpot_iff_black v).mpr hh) (by simp [Side.otherSide] at hnot; simp [hnot])
    simp only [Side.token]; omega
  · have hle : ¬ 0 < v := fun hh =>
      absurd ((ownsSpot_iff_white v).mpr hh) (by simp [Side.otherSide] at hnot; simp [hnot])
    simp only [Side.token]; omega

lemma list_get?_set_self : ∀ (l : List Int) (n : Nat) (w : Int), n < l.length →
    (l.set n w).get? n = some w := by
  intro l
  induction l with
  | nil => intro n w h; simp at h
  | cons x xs ih =>
    intro n w h
    cases n with
    | zero => rfl
    | succ m => simpa using ih m w (by simpa using h)

lemma list_get?_set_ne : ∀ (l : List Int) (n m : Nat) (w : Int), n ≠ m →
    (l.set n w).get? m = l.get? m := by
  intro l
  induction l with
  | nil => intro n m w _; simp
  | cons x xs ih =>
    intro n m w hnm
    cases n with
    | zero =>
      cases m with
      | zero => exact absurd rfl hnm
      | succ k => rfl
    | succ j =>
      cases m with
      | zero => rfl
      | succ k => simpa using ih j k w (by omega)

lemma list_getD_of_get? {l : List Int} {n : Nat} {v : Int} (h : l.get? n = some v) :
    l.getD n 0 = v := by
  have h2 : l[n]? = some v := by simpa [← List.get?_eq_getElem?] using h
  simp [List.getD_eq_getElem?_getD, h2]

lemma boardCount_set (s : Side) : ∀ (l : List Int) (n : Nat) (v0 w : Int),
    l.get? n = some v0 →
    boardCount s (l.set n w) + spotCountFor s v0 = boardCount s l + spotCountFor s w := by
  intro l
  induction l with
  | nil => intro n v0 w h; simp at h
  | cons x xs ih =>
    intro n v0 w h
    cases n with
    | zero =>
      obtain rfl : x = v0 := by simpa using h
      simp only [List.set, boardCount, List.map_cons, List.sum_cons]
      omega
    | succ m =>
      have hrec := ih m v0 w (by simpa using h)
      simp only [List.set, boardCount, List.map_cons, List.sum_cons] at *
      omega

lemma pyIndex_lt {len : Nat} {i : Int} {n : Nat} (h : pyIndex len i = some n) : n < len := by
  unfold pyIndex at h
  split_ifs at h with h1 h2 h3
  · have h4 := Option.some.inj h
    omega
  · have h4 := Option.some.inj h
    omega

lemma pyGet_ok {l : List Int} {i v : Int} (h : pyGet l i = .ok v) :
    ∃ n, pyIndex l.length i = some n ∧ l.get? n = some v ∧ n < l.length := by
  unfold pyGet at h
  split at h
  · exact absurd h (by simp)
  rename_i n hp
  split at h
  · exact absurd h (by simp)
  rename_i w hg
  obtain rfl : w = v := by injection h
  exact ⟨n, hp, hg, pyIndex_lt hp⟩

lemma pySet_ok_of_pyIndex {l : List Int} {i : Int} (w : Int) {n : Nat}
    (h : pyIndex l.length i = some n) : pySet l i w = .ok (l.set n w) := by
  unfold pySet
  rw [h]

lemma jail_get_set_self (j : Jail) (s : Side) (v : Int) : (j.set s v).get s = v := by
  cases s <;> rfl

lemma jail_get_set_ne (j : Jail) (s t : Side) (hst : s ≠ t) (v : Int) :
    (j.set s v).get t = j.get t := by
  cases s <;> cases t <;> first | rfl | exact absurd rfl hst

lemma decrementOrigin_ok {spots : List Int} {jail : Jail} {m : MoveTuple}
    {s1 : List Int} {j1 : Jail} (h : decrementOrigin spots jail m = .ok (s1, j1)) :
    (m.startsInJail = true ∧ ∃ w, decrementForSide (jail.get m.side) m.side = .ok w ∧
       s1 = spots ∧ j1 = jail.set m.side w) ∨
    (m.startsInJail = false ∧ ∃ n v w, pyIndex spots.length m.effectiveStart = some n ∧
       spots.get? n = some v ∧ decrementForSide v m.side = .ok w ∧
       s1 = spots.set n w ∧ j1 = jail) := by
  unfold decrementOrigin at h
  split at h
  · rename_i hb
    right
    refine ⟨by simpa using hb, ?_⟩
    split at h
    · exact absurd h (by simp)
    rename_i v hget
    split at h
    · exact absurd h (by simp)
    rename_i w hdec
    split at h
    · exact absurd h (by simp)
    rename_i s2 hset
    obtain ⟨n, hp, hg, _⟩ := pyGet_ok hget
    rw [pySet_ok_of_pyIndex w hp] at hset
    injection hset with hs2
    subst hs2
    injection h with hpair
    exact ⟨n, v, w, hp, hg, hdec,
      (congrArg Prod.fst hpair).symm, (congrArg Prod.snd hpair).symm⟩
  · rename_i hb
    left
    refine ⟨by simpa using hb, ?_⟩
    split at h
    · exact absurd h (by simp)
    rename_i w hdec
    injection h with hpair
    exact ⟨w, hdec, (congrArg Prod.fst hpair).symm, (congrArg Prod.snd hpair).symm⟩

lemma handleStomp_ok {spots : List Int} {jail : Jail} {m : MoveTuple}
    {s1 : List Int} {j1 : Jail} (h : handleStomp spots jail m = .ok (s1, j1)) :
    (∃ v, pyGet spots m.effectiveEnd = .ok v ∧ m.side.otherSide.ownsSpot v = false ∧
       s1 = spots ∧ j1 = jail) ∨
    (∃ n v w jw, pyIndex spots.length m.effectiveEnd = some n ∧
       spots.get? n = some v ∧ m.side.otherSide.ownsSpot v = true ∧
       isStompable v = true ∧ decrementForSide v m.side.otherSide = .ok w ∧
       incrementForSide (jail.get m.side.otherSide) m.side.otherSide = .ok jw ∧
       s1 = spots.set n w ∧ j1 = jail.set m.side.otherSide jw) := by
  unfold handleStomp at h
  split at h
  · exact absurd h (by simp)
  rename_i v hget
  split at h
  · rename_i howns
    split at h
    · exact absurd h (by simp)
    rename_i hstomp
    split at h
    · exact absurd h (by simp)
    rename_i w hdec
    split at h
    · exact absurd h (by simp)
    rename_i s2 hset
    split at h
    · exact absurd h (by simp)
    rename_i jw hinc
    right
    obtain ⟨n, hp, hg, _⟩ := pyGet_ok hget
    rw [pySet_ok_of_pyIndex w hp] at hset
    injection hset with hs2
    subst hs2
    injection h with hpair
    refine ⟨n, v, w, jw, hp, hg, howns, by simpa using hstomp, hdec, hinc,
      (congrArg Prod.fst hpair).symm, (congrArg Prod.snd hpair).symm⟩
  · rename_i howns
    left
    injection h with hpair
    exact ⟨v, hget, by simpa using howns,
      (congrArg Prod.fst hpair).symm, (congrArg Prod.snd hpair).symm⟩

lemma incrementDestination_ok {spots : List Int} {jail : Jail} {m : MoveTuple}
    {s1 : List Int} {j1 : Jail} (h : incrementDestination spots jail m = .ok (s1, j1)) :
    ∃ n v w, pyIndex spots.length m.effectiveEnd = some n ∧
      spots.get? n = some v ∧ incrementForSide v m.side = .ok w ∧
      s1 = spots.set n w ∧ j1 = jail := by
  unfold incrementDestination at h
  split at h
  · exact absurd h (by simp)
  rename_i v hget
  split at h
  · exact absurd h (by simp)
  rename_i w hinc
  split at h
  · exact absurd h (by simp)
  rename_i s2 hset
  obtain ⟨n, hp, hg, _⟩ := pyGet_ok hget
  rw [pySet_ok_of_pyIndex w hp] at hset
  injection hset with hs2
  subst hs2
  injection h with hpair
  exact ⟨n, v, w, hp, hg, hinc,
    (congrArg Prod.fst hpair).symm, (congrArg Prod.snd hpair).symm⟩

lemma makeMove_ok {spots : List Int} {jail : Jail} {m : MoveTuple}
    {spotsF : List Int} {jailF : Jail}
    (h : makeMove spots jail m = .ok (spotsF, jailF)) :
    ∃ s1 j1 s2 j2, decrementOrigin spots jail m = .ok (s1, j1) ∧
      handleStomp s1 j1 m = .ok (s2, j2) ∧
      incrementDestination s2 j2 m = .ok (spotsF, jailF) := by
  unfold makeMove at h
  split at h
  · exact absurd h (by simp)
  split at h
  · exact absurd h (by simp)
  split at h
  · exact absurd h (by simp)
  · exact absurd h (by simp)
  split at h
  · exact absurd h (by simp)
  rename_i s1 j1 hdo
  split at h
  · exact absurd h (by simp)
  rename_i s2 j2 hhs
  exact ⟨s1, j1, s2, j2, hdo, hhs, h⟩


lemma makeMove_counts {spots : List Int} {jail : Jail} {m : MoveTuple}
    {spotsF : List Int} {jailF : Jail}
    (h : makeMove spots jail m = .ok (spotsF, jailF)) :
    totalCount m.side spotsF jailF = totalCount m.side spots jail ∧
    totalCount m.side.otherSide spotsF jailF = totalCount m.side.otherSide spots jail ∧
    ((boardCount m.side.otherSide spotsF = boardCount m.side.otherSide spots ∧
      jailCount m.side.otherSide jailF = jailCount m.side.otherSide jail) ∨
     (∃ n, pyIndex spots.length m.effectiveEnd = some n ∧
        spotCountFor m.side.otherSide (spots.getD n 0) =
          spotCountFor m.side.otherSide (spotsF.getD n 0) + 1 ∧
        boardCount m.side.otherSide spotsF + 1 = boardCount m.side.otherSide spots ∧
        jailCount m.side.otherSide jailF = jailCount m.side.otherSide jail + 1)) := by
  obtain ⟨s1, j1, s2, j2, hdo, hhs, hid⟩ := makeMove_ok h
  obtain ⟨nF, vF, wF, hpF, hgF, hincF, hsF, hjF⟩ := incrementDestination_ok hid
  subst hsF
  subst hjF
  obtain ⟨gf1, gf2, gf3⟩ := spotCount_increment hincF
  have bfs := boardCount_set m.side s2 nF vF wF hgF
  have bft := boardCount_set m.side.otherSide s2 nF vF wF hgF
  have hne := Side.otherSide_ne m.side
  rcases handleStomp_ok hhs with ⟨vS, hgetS, hnotS, hs2, hj2⟩ |
    ⟨nS, vS, wS, jwS, hpS, hgS, hownS, hstompS, hdecS, hincS, hs2, hj2⟩
  · -- no capture at the destination
    subst hs2
    subst hj2
    rcases decrementOrigin_ok hdo with ⟨hjT, wJ, hdecJ, hs1, hj1⟩ |
      ⟨hjB, n0, v0, w0, hp0, hg0, hdec0, hs1, hj1⟩
    · -- origin in jail
      have es := hs1.symm
      subst es
      subst hj1
      have hnj := natAbs_decrement hdecJ
      have hg1 := jail_get_set_self jail m.side wJ
      have hg2 := jail_get_set_ne jail m.side m.side.otherSide hne.symm wJ
      simp only [totalCount, jailCount]
      rw [hg1, hg2]
      exact ⟨by omega, by omega, Or.inl ⟨by omega, by omega⟩⟩
    · -- origin on the board
      subst hs1
      have ej := hj1.symm
      subst ej
      obtain ⟨g01, g02, g03⟩ := spotCount_decrement hdec0
      have b0s := boardCount_set m.side spots n0 v0 w0 hg0
      have b0t := boardCount_set m.side.otherSide spots n0 v0 w0 hg0
      simp only [totalCount, jailCount]
      exact ⟨by omega, by omega, Or.inl ⟨by omega, trivial⟩⟩
  · -- capture at the destination
    obtain ⟨gs1, gs2, gs3⟩ := spotCount_decrement hdecS
    rw [Side.otherSide_otherSide] at gs2 gs3
    have hji := natAbs_increment hincS
    subst hs2
    subst hj2
    rcases decrementOrigin_ok hdo with ⟨hjT, wJ, hdecJ, hs1, hj1⟩ |
      ⟨hjB, n0, v0, w0, hp0, hg0, hdec0, hs1, hj1⟩
    · -- origin in jail, with capture
      have es := hs1.symm
      subst es
      subst hj1
      have hnj := natAbs_decrement hdecJ
      have hnSlt : nS < spots.length := pyIndex_lt hpS
      have bss := boardCount_set m.side spots nS vS wS hgS
      have bst := boardCount_set m.side.otherSide spots nS vS wS hgS
      have hlenS : (spots.set nS wS).length = spots.length := by simp
      rw [hlenS, hpS] at hpF
      obtain rfl : nS = nF := Option.some.inj hpF
      have hvw : (spots.set nS wS).get? nS = some wS := list_get?_set_self spots nS wS hnSlt
      rw [hvw] at hgF
      obtain rfl : wS = vF := Option.some.inj hgF
      have hgd1 : spots.getD nS 0 = vS := list_getD_of_get? hgS
      have hgd2 : ((spots.set nS wS).set nS wF).getD nS 0 = wF :=
        list_getD_of_get? (list_get?_set_self _ nS wF (by simpa using hnSlt))
      have hgj1 := jail_get_set_ne (jail.set m.side wJ) m.side.otherSide m.side hne jwS
      have hgj2 := jail_get_set_self jail m.side wJ
      have hgj3 := jail_get_set_self (jail.set m.side wJ) m.side.otherSide jwS
      have hgj4 := jail_get_set_ne jail m.side m.side.otherSide hne.symm wJ
      rw [hgj4] at hji
      simp only [totalCount, jailCount]
      rw [hgj1, hgj2, hgj3]
      refine ⟨by omega, by omega, Or.inr ⟨nS, hpS, ?_, by omega, by omega⟩⟩
      rw [hgd1, hgd2]
      omega
    · -- origin on the board, with capture
      subst hs1
      have ej := hj1.symm
      subst ej
      obtain ⟨g01, g02, g03⟩ := spotCount_decrement hdec0
      have b0s := boardCount_set m.side spots n0 v0 w0 hg0
      have b0t := boardCount_set m.side.otherSide spots n0 v0 w0 hg0
      have hn0lt : n0 < spots.length := pyIndex_lt hp0
      have hlen0 : (spots.set n0 w0).length = spots.length := by simp
      rw [hlen0] at hpS
      have hnSlt : nS < spots.length := pyIndex_lt hpS
      have hn0nS : n0 ≠ nS := by
        intro hEq
        subst hEq
        have hvw0 : (spots.set n0 w0).get? n0 = some w0 := list_get?_set_self spots n0 w0 hn0lt
        rw [hvw0] at hgS
        obtain rfl : w0 = vS := Option.some.inj hgS
        omega
      have hgSs : spots.get? nS = some vS := by
        rw [list_get?_set_ne spots n0 nS w0 hn0nS] at hgS
        exact hgS
      have bss := boardCount_set m.side (spots.set n0 w0) nS vS wS hgS
      have bst := boardCount_set m.side.otherSide (spots.set n0 w0) nS vS wS hgS
      have hlenS : ((spots.set n0 w0).set nS wS).length = spots.length := by simp
      rw [hlenS, hpS] at hpF
      obtain rfl : nS = nF := Option.some.inj hpF
      have hvw : ((spots.set n0 w0).set nS wS).get? nS = some wS :=
        list_get?_set_self _ nS wS (by simpa using hnSlt)
      rw [hvw] at hgF
      obtain rfl : wS = vF := Option.some.inj hgF
      have hgd1 : spots.getD nS 0 = vS := list_getD_of_get? hgSs
      have hgd2 : (((spots.set n0 w0).set nS wS).set nS wF).getD nS 0 = wF :=
        list_getD_of_get? (list_get?_set_self _ nS wF (by simpa using hnSlt))
      have hgj1 := jail_get_set_ne jail m.side.otherSide m.side hne jwS
      have hgj2 := jail_get_set_self jail m.side.otherSide jwS
      simp only [totalCount, jailCount]
      rw [hgj1, hgj2]
      refine ⟨by omega, by omega, Or.inr ⟨nS, hpS, ?_, by omega, by omega⟩⟩
      rw [hgd1, hgd2]
      omega

/-- Claim C6: for every board, jail and move on which apply-move succeeds, each
side's total checker count (board plus jail combined) is unchanged, except that
on a capture exactly one opposing checker moves from the destination board
position to the opposing side's jail. -/
theorem claim6_conservation {spots : List Int} {jail : Jail} {m : MoveTuple}
    {spotsF : List Int} {jailF : Jail}
    (h : makeMove spots jail m = .ok (spotsF, jailF)) :
    totalCount .white spotsF jailF = totalCount .white spots jail ∧
    totalCount .black spotsF jailF = totalCount .black spots jail ∧
    ((boardCount m.side.otherSide spotsF = boardCount m.side.otherSide spots ∧
      jailCount m.side.otherSide jailF = jailCount m.side.otherSide jail) ∨
     (∃ n, pyIndex spots.length m.effectiveEnd = some n ∧
        spotCountFor m.side.otherSide (spots.getD n 0) =
          spotCountFor m.side.otherSide (spotsF.getD n 0) + 1 ∧
        boardCount m.side.otherSide spotsF + 1 = boardCount m.side.otherSide spots ∧
        jailCount m.side.otherSide jailF = jailCount m.side.otherSide jail + 1)) := by
  obtain ⟨h1, h2, h3⟩ := makeMove_counts h
  cases hm : m.side
  · rw [hm] at h1 h2 h3
    simp only [Side.otherSide] at h2
    exact ⟨h1, h2, h3⟩
  · rw [hm] at h1 h2 h3
    simp only [Side.otherSide] at h2
    exact ⟨h2, h1, h3⟩

def c6spots : List Int := (List.replicate 28 0).set 3 1

def c6move : MoveTuple := ⟨.white, 3, 2⟩

def c6spotsAfter : List Int := (c6spots.set 3 0).set 5 1

/-- Witness for C6: the conservation theorem applied to a concrete legal move
(a white checker moving from spot 3 to spot 5 on an otherwise empty board). -/
theorem claim6_conservation_witness :
    totalCount .white c6spotsAfter jail0 = totalCount .white c6spots jail0 ∧
    totalCount .black c6spotsAfter jail0 = totalCount .black c6spots jail0 ∧
    ((boardCount c6move.side.otherSide c6spotsAfter = boardCount c6move.side.otherSide c6spots ∧
      jailCount c6move.side.otherSide jail0 = jailCount c6move.side.otherSide jail0) ∨
     (∃ n, pyIndex c6spots.length c6move.effectiveEnd = some n ∧
        spotCountFor c6move.side.otherSide (c6spots.getD n 0) =
          spotCountFor c6move.side.otherSide (c6spotsAfter.getD n 0) + 1 ∧
        boardCount c6move.side.otherSide c6spotsAfter + 1 =
          boardCount c6move.side.otherSide c6spots ∧
        jailCount c6move.side.otherSide jail0 = jailCount c6move.side.otherSide jail0 + 1)) :=
  claim6_conservation (by rfl : makeMove c6spots jail0 c6move = .ok (c6spotsAfter, jail0))

instance {ε α : Type} [DecidableEq ε] [DecidableEq α] : DecidableEq (Except ε α) := fun x y =>
  match x, y with
  | .error a, .error b =>
    if h : a = b then .isTrue (by rw [h]) else .isFalse (fun hh => h (Except.error.inj hh))
  | .ok a, .ok b =>
    if h : a = b then .isTrue (by rw [h]) else .isFalse (fun hh => h (Except.ok.inj hh))
  | .error _, .ok _ => .isFalse (fun hh => Except.noConfusion hh)
  | .ok _, .error _ => .isFalse (fun hh => Except.noConfusion hh)

lemma ownsSpot_ne_zero {s : Side} {v : Int} (h : s.ownsSpot v = true) : v ≠ 0 := by
  cases s
  · rw [ownsSpot_iff_white] at h; omega
  · rw [ownsSpot_iff_black] at h; omega

lemma list_get?_getD : ∀ (l : List Int) (n : Nat), n < l.length →
    l.get? n = some (l.getD n 0) := by
  intro l
  induction l with
  | nil => intro n h; simp at h
  | cons x xs ih =>
    intro n h
    cases n with
    | zero => rfl
    | succ m => simpa [List.getD_cons_succ] using ih m (by simpa using h)

lemma pyGet_nonneg {l : List Int} {i : Int} (h0 : 0 ≤ i) (hlt : i.toNat < l.length) :
    pyGet l i = .ok (l.getD i.toNat 0) := by
  have hp : pyIndex l.length i = some i.toNat := by
    unfold pyIndex
    rw [if_pos h0, if_pos (by omega)]
  unfold pyGet
  simp only [hp, list_get?_getD l i.toNat hlt]

lemma allInLastQuarterAux_eq {spots : List Int} {side : Side} :
    ∀ idxs : List Int, (∀ i ∈ idxs, 0 ≤ i ∧ i.toNat < spots.length) →
    allInLastQuarterAux spots side idxs =
      .ok (idxs.all (fun i => !side.ownsSpot (spots.getD i.toNat 0))) := by
  intro idxs
  induction idxs with
  | nil => intro _; rfl
  | cons i rest ih =>
    intro hv
    obtain ⟨hi0, hilt⟩ := hv i (by simp)
    have hget := pyGet_nonneg hi0 hilt
    have hrest := ih (fun j hj => hv j (List.mem_cons_of_mem _ hj))
    cases hb : side.ownsSpot (spots.getD i.toNat 0) with
    | true =>
      have hnz : getNumberPresent (spots.getD i.toNat 0) ≠ 0 := by
        have := ownsSpot_ne_zero hb
        unfold getNumberPresent
        omega
      simp only [allInLastQuarterAux, hget, hb, if_pos, List.all_cons, Bool.not_true,
        Bool.false_and]
      rw [if_neg hnz]
    | false =>
      simp only [allInLastQuarterAux, hget, hb, List.all_cons, Bool.not_false, Bool.true_and]
      rw [if_neg (by simp [hb])]
      exact hrest

lemma progression_mem {s : Side} {i : Int} (h : i ∈ s.progression) : 0 ≤ i ∧ i ≤ 25 := by
  cases s
  · have hall : Side.white.progression.all (fun j => decide (0 ≤ j ∧ j ≤ 25)) = true := by
      decide
    simpa using List.all_eq_true.mp hall i h
  · have hall : Side.black.progression.all (fun j => decide (0 ≤ j ∧ j ≤ 25)) = true := by
      decide
    simpa using List.all_eq_true.mp hall i h

lemma allInLastQuarter_eq {spots : List Int} {side : Side} (hlen : spots.length = 28) :
    allInLastQuarter spots side =
      .ok ((side.progression.take (side.progression.length - 7)).all
        (fun i => !side.ownsSpot (spots.getD i.toNat 0))) := by
  unfold allInLastQuarter
  apply allInLastQuarterAux_eq
  intro i hi
  have hb := progression_mem (List.mem_of_mem_take hi)
  rw [hlen]
  omega

lemma all_not_of_any (l : List Int) (p : Int → Bool) (h : l.any p = true) :
    l.all (fun i => !p i) = false := by
  rcases List.any_eq_true.mp h with ⟨i, hi, hp⟩
  cases hall : l.all (fun i => !p i) with
  | false => rfl
  | true =>
    have := List.all_eq_true.mp hall i hi
    simp [hp] at this

/-- Claim C5 (amended): for every 28-spot board, jail and move whose
effective end equals the moving side's home index and whose effective start
differs from home, if any position on the side's path excluding the last 7
entries holds the side's checkers, apply-move raises IllegalMove. (The claim
as frozen also covers degenerate moves whose effective start already equals
home; the code instead raises a division error there, see the
counterexample.) -/
theorem claim5_bearing_off_amended {spots : List Int} {jail : Jail} {m : MoveTuple}
    (hlen : spots.length = 28)
    (hend : m.effectiveEnd = m.side.home)
    (hstart : m.effectiveStart ≠ m.side.home)
    (hout : (m.side.progression.take (m.side.progression.length - 7)).any
       (fun i => m.side.ownsSpot (spots.getD i.toNat 0)) = true) :
    makeMove spots jail m = .error .illegalMove := by
  have hdist : ¬ (m.effectiveEnd - m.effectiveStart = 0) := by
    intro hc
    apply hstart
    omega
  have hdir : m.direction? = some (m.effectiveEnd - m.effectiveStart).sign := by
    simp [MoveTuple.direction?, hdist]
  simp only [makeMove, hdir]
  by_cases hd : (m.effectiveEnd - m.effectiveStart).sign = m.side.direction
  · rw [if_neg (fun hh => hh hd), if_pos hend, allInLastQuarter_eq hlen,
      all_not_of_any _ _ hout]
  · rw [if_pos hd]

def c5spots : List Int := (List.replicate 28 0).set 1 1

def c5move : MoveTuple := ⟨.white, 25, 1⟩

/-- Claim C5 counterexample: a white checker sits at spot 1 (outside the
last quarter), and the move from start 25 has effective end equal to white's
home; the claim says apply-move must raise IllegalMove, but the code raises
the division error from the degenerate `direction` computation instead. -/
theorem claim5_counterexample :
    c5move.effectiveEnd = c5move.side.home ∧
    (c5move.side.progression.take (c5move.side.progression.length - 7)).any
      (fun i => c5move.side.ownsSpot (c5spots.getD i.toNat 0)) = true ∧
    makeMove c5spots jail0 c5move = .error .zeroDivision ∧
    makeMove c5spots jail0 c5move ≠ .error .illegalMove := by
  refine ⟨rfl, by decide, rfl, ?_⟩
  intro hc
  have he := ((by rfl :
    makeMove c5spots jail0 c5move = Except.error Err.zeroDivision).symm.trans hc)
  injection he with he2
  exact Err.noConfusion he2

/-- Witness for the amended C5: a white checker at spot 1 plus a bearing-off
move from spot 20 with die 5 (effective end 25 = home, start 20 ≠ home) is
rejected with IllegalMove. -/
theorem claim5_witness : makeMove c5spots jail0 ⟨.white, 20, 5⟩ = .error .illegalMove :=
  claim5_bearing_off_amended (by rfl) (by rfl) (by decide) (by decide)

lemma le_foldl_max_init : ∀ (xs : List Int) (x b : Int), b ≤ x → b ≤ xs.foldl max x := by
  intro xs
  induction xs with
  | nil => intro x b hb; simpa using hb
  | cons a as ih => intro x b hb; exact ih (max x a) b (le_trans hb (le_max_left x a))

lemma le_foldl_max_of_mem : ∀ (xs : List Int) (x y : Int), y ∈ xs → y ≤ xs.foldl max x := by
  intro xs
  induction xs with
  | nil => intro x y hy; simp at hy
  | cons a as ih =>
    intro x y hy
    rcases List.mem_cons.mp hy with rfl | hmem
    · exact le_foldl_max_init as (max x y) y (le_max_right x y)
    · exact ih (max x a) y hmem

lemma foldl_max_mem : ∀ (xs : List Int) (x : Int), xs.foldl max x ∈ x :: xs := by
  intro xs
  induction xs with
  | nil => intro x; simp
  | cons a as ih =>
    intro x
    show as.foldl max (max x a) ∈ x :: a :: as
    rcases List.mem_cons.mp (ih (max x a)) with heq | hmem
    · rw [heq]
      rcases max_choice x a with hx | ha
      · rw [hx]; exact List.mem_cons_self _ _
      · rw [ha]; exact List.mem_cons_of_mem _ (List.mem_cons_self _ _)
    · exact List.mem_cons_of_mem _ (List.mem_cons_of_mem _ hmem)

lemma zip_map_self : ∀ l : List (List MoveTuple),
    l.zip (l.map rating) = l.map (fun s => (s, rating s)) := by
  intro l
  induction l with
  | nil => rfl
  | cons x xs ih => simp only [List.map_cons, List.zip_cons_cons, ih]

lemma mem_filterMap_opt (l : List (List MoveTuple)) (best : Int) (ms : List MoveTuple) :
    (ms ∈ (l.zip (l.map rating)).filterMap
        (fun p => if p.2 = best then some p.1 else none)) ↔
      (ms ∈ l ∧ rating ms = best) := by
  rw [zip_map_self]
  simp only [List.mem_filterMap, List.mem_map]
  constructor
  · rintro ⟨p, ⟨s, hs, rfl⟩, hif⟩
    by_cases hb : rating s = best
    · rw [if_pos hb] at hif
      obtain rfl := Option.some.inj hif
      exact ⟨hs, hb⟩
    · rw [if_neg hb] at hif
      exact absurd hif (by simp)
  · rintro ⟨hmem, hb⟩
    exact ⟨(ms, rating ms), ⟨ms, hmem, rfl⟩, by rw [if_pos hb]⟩

/-- Claim C3: whenever the enumeration succeeds with a non-empty set of legal
sequences, select-optimal-sequences returns a non-empty set, and every
sequence it returns has total-distance rating greater than or equal to the
rating of every sequence in the full enumerated set. -/
theorem claim3_optimal_selector {spots : List Int} {jail : Jail} {side : Side}
    {dice : List Int} {l : List (List MoveTuple)}
    (h : getAllMoveSets spots jail side dice = .ok l) (hne : l ≠ []) :
    ∃ res, getAllOptimalMoves spots jail side dice = .ok res ∧ res ≠ [] ∧
      ∀ ms ∈ res, ∀ ms2 ∈ l, rating ms2 ≤ rating ms := by
  unfold getAllOptimalMoves
  rw [h]
  cases l with
  | nil => exact absurd rfl hne
  | cons x xs =>
    simp only [List.map_cons, pyMax]
    refine ⟨_, rfl, ?_, ?_⟩
    · have hmem : (List.map rating xs).foldl max (rating x) ∈
          (x :: xs).map rating := foldl_max_mem _ _
      obtain ⟨ms0, hms0, hrat⟩ := List.mem_map.mp hmem
      have hmemRes : ms0 ∈ ((x :: xs).zip ((x :: xs).map rating)).filterMap
          (fun p => if p.2 = (List.map rating xs).foldl max (rating x)
                    then some p.1 else none) :=
        (mem_filterMap_opt _ _ _).mpr ⟨hms0, hrat⟩
      exact List.ne_nil_of_mem hmemRes
    · intro ms hms ms2 hms2
      have h1 := (mem_filterMap_opt (x :: xs)
        ((List.map rating xs).foldl max (rating x)) ms).mp hms
      rw [h1.2]
      rcases List.mem_cons.mp hms2 with rfl | htail
      · exact le_foldl_max_init _ _ _ (le_refl _)
      · exact le_foldl_max_of_mem _ _ _ (List.mem_map_of_mem rating htail)

/-- Witness for C3: on an empty 28-spot board with dice (5,6) the enumeration
returns exactly the empty sequence, and the selector returns a non-empty
maximal set. -/
theorem claim3_witness :
    ∃ res, getAllOptimalMoves (List.replicate 28 0) jail0 .white [5, 6] = .ok res ∧
      res ≠ [] ∧ ∀ ms ∈ res, ∀ ms2 ∈ [([] : List MoveTuple)], rating ms2 ≤ rating ms :=
  claim3_optimal_selector (by rfl) (by decide)

/-- Claim C4: if every move in the chosen sequence uses its whole die, play
skips the optimality check and applies the sequence directly; otherwise,
once the optimal set is computed, play raises the IllegalMove domain error
unless the chosen sequence is a member of that set, and on acceptance applies
the moves in order, threading the state. -/
theorem claim4_play_checks (spots : List Int) (jail : Jail) (side : Side)
    (moveSet : List MoveTuple) (dice : List Int) :
    (moveSet.all MoveTuple.usesWholeRoll = true →
      play spots jail side moveSet dice = applyMoves spots jail moveSet) ∧
    (moveSet.all MoveTuple.usesWholeRoll = false →
      ∀ opt, getAllOptimalMoves spots jail side dice = .ok opt →
        (moveSet ∉ opt → play spots jail side moveSet dice = .error .illegalMove) ∧
        (moveSet ∈ opt →
          play spots jail side moveSet dice = applyMoves spots jail moveSet)) := by
  constructor
  · intro hall
    unfold play
    rw [if_pos hall]
  · intro hall opt hopt
    constructor
    · intro hnot
      simp only [play, hall, hopt, Bool.false_eq_true, if_false]
      rw [if_neg hnot]
    · intro hmem
      simp only [play, hall, hopt, Bool.false_eq_true, if_false]
      rw [if_pos hmem]

/-- Witness for C4: on an empty board with dice (5), the sequence holding the
single truncated move (white, start 26, die 5) does not use its whole die,
is not in the optimal set, and play rejects it with IllegalMove. -/
theorem claim4_witness :
    play (List.replicate 28 0) jail0 .white [⟨.white, 26, 5⟩] [5] = .error .illegalMove :=
  ((claim4_play_checks (List.replicate 28 0) jail0 .white [⟨.white, 26, 5⟩] [5]).2
    (by decide) [[]] (by rfl)).1 (by decide)

/-- Claim C10: play with an empty chosen sequence never raises and returns the
input board and jail unchanged: the whole-die exemption holds vacuously, the
optimality check is skipped, and no move is applied. -/
theorem claim10_play_empty (spots : List Int) (jail : Jail) (side : Side)
    (dice : List Int) : play spots jail side [] dice = .ok (spots, jail) := rfl

/-- Claim C9: every value returned by roll is in [1,6]; when the two drawn
values are equal the result is exactly the value four times, and when they
differ the result is exactly the two values sorted ascending. -/
theorem claim9_roll_dice (a b : Int) (ha : a ∈ DICE_CHOICES) (hb : b ∈ DICE_CHOICES) :
    (∀ x ∈ rollDice a b, 1 ≤ x ∧ x ≤ 6) ∧
    (a = b → rollDice a b = [a, a, a, a]) ∧
    (a ≠ b → rollDice a b = [min a b, max a b]) := by
  simp only [DICE_CHOICES, List.mem_cons, List.not_mem_nil, or_false] at ha hb
  rcases ha with rfl | rfl | rfl | rfl | rfl | rfl <;>
    rcases hb with rfl | rfl | rfl | rfl | rfl | rfl <;> decide

/-- Witness for C9: the theorem applied to the concrete draws 2 and 5. -/
theorem claim9_witness :
    (∀ x ∈ rollDice 2 5, 1 ≤ x ∧ x ≤ 6) ∧
    ((2 : Int) = 5 → rollDice 2 5 = [2, 2, 2, 2]) ∧
    ((2 : Int) ≠ 5 → rollDice 2 5 = [min 2 5, max 2 5]) :=
  claim9_roll_dice 2 5 (by decide) (by decide)

def c1spots : List Int := (List.replicate 26 0).set 20 1

def c1jail : Jail := ⟨1, 0⟩

/-- Claim C1 (evaluation at the failing input): per the spec, enumerating from
a board whose only white checker sits at position 20 (dice 5,6) must consider
position 20 as a starting point, and the jail origin when white's jail is
occupied; the code's start-spot scan zips only the final path entry against
spots[0] and ignores the jail, so both calls find no start and return only
the empty sequence. -/
theorem claim1_start_scan_eval :
    getAllMoveSets c1spots jail0 .white [5, 6] = .ok [[]] ∧
    getAllMoveSets c1spots c1jail .white [5, 6] = .ok [[]] ∧
    Side.white.ownsSpot (c1spots.getD 20 0) = true ∧ c1jail.get .white = 1 :=
  ⟨rfl, rfl, rfl, rfl⟩

def c2spots : List Int := ((List.replicate 28 0).set 3 1).set 5 (-2)

def c2spotsB : List Int := ((List.replicate 28 0).set 22 (-1)).set 20 2

/-- Claim C2 (evaluation at the failing input): the destination spot 5 holds
two black checkers; the white move onto it passes the stompable check (the
code compares the raw signed value with 2) and then dies with the internal
ValueError while incrementing an opponent-owned spot, instead of raising
IllegalMove; the symmetric black move onto two white checkers does raise
IllegalMove. -/
theorem claim2_unstompable_eval :
    spotCountFor .black (c2spots.getD 5 0) = 2 ∧
    makeMove c2spots jail0 ⟨.white, 3, 2⟩ = .error .valueError ∧
    makeMove c2spots jail0 ⟨.white, 3, 2⟩ ≠ .error .illegalMove ∧
    makeMove c2spotsB jail0 ⟨.black, 22, 2⟩ = .error .illegalMove := by
  refine ⟨rfl, rfl, ?_, rfl⟩
  decide

def c7spots : List Int := (List.replicate 26 0).set 0 (-1)

def isError {α : Type} : Except Err α → Bool
  | .error _ => true
  | .ok _ => false

/-- Claim C7 (evaluation at the failing input): black's only checker has been
borne off to position 0 and the dice are (5); every single move with start in
-1..25 (the jail flag and all board indices) and die 1..6 fails, so no single
move is legal, yet the enumeration does not return a set containing the empty
sequence: the buggy start-spot scan selects position 0 and the degenerate
move from there raises an uncaught division error. -/
theorem claim7_empty_sequence_eval :
    getAllMoveSets c7spots jail0 .black [5] = .error .zeroDivision ∧
    ((List.range 27).map (fun k => (k : Int) - 1)).all (fun s =>
      DICE_CHOICES.all (fun d =>
        isError (makeMove c7spots jail0 ⟨.black, s, d⟩))) = true :=
  ⟨rfl, by decide⟩

/-- Claim C8 (evaluation at the failing input): the move (white, start 25,
die 3) has effective end equal to effective start; per the spec the mutator
must reject it as an invalid move, but computing its direction divides by
zero and apply-move propagates the division error, not IllegalMove. -/
theorem claim8_degenerate_eval :
    (⟨.white, 25, 3⟩ : MoveTuple).effectiveEnd =
      (⟨.white, 25, 3⟩ : MoveTuple).effectiveStart ∧
    (⟨.white, 25, 3⟩ : MoveTuple).direction? = none ∧
    makeMove (List.replicate 28 0) jail0 ⟨.white, 25, 3⟩ = .error .zeroDivision ∧
    makeMove (List.replicate 28 0) jail0 ⟨.white, 25, 3⟩ ≠ .error .illegalMove := by
  refine ⟨rfl, rfl, rfl, ?_⟩
  decide

lemma getDieAndOtherDice_length : ∀ (l : List Int) (p : Int × List Int),
    p ∈ getDieAndOtherDice l → p.2.length + 1 = l.length := by
  intro l
  induction l with
  | nil => intro p hp; simp [getDieAndOtherDice] at hp
  | cons d ds ih =>
    intro p hp
    simp only [getDieAndOtherDice, List.mem_cons, List.mem_map] at hp
    rcases hp with rfl | ⟨q, hq, rfl⟩
    · simp
    · have := ih q hq
      simp only [List.length_cons]
      omega

lemma foldlM_congr {α β : Type} : ∀ (l : List α) (f g : β → α → Except Err β) (b : β),
    (∀ x ∈ l, ∀ acc, f acc x = g acc x) → l.foldlM f b = l.foldlM g b := by
  intro l
  induction l with
  | nil => intro f g b _; rfl
  | cons x xs ih =>
    intro f g b h
    rw [List.foldlM_cons, List.foldlM_cons, h x (by simp) b]
    cases hg : g b x with
    | error e => rfl
    | ok b2 => exact ih f g b2 (fun y hy acc => h y (List.mem_cons_of_mem _ hy) acc)

/-- The fuel used by `gams` is irrelevant as soon as it is at least the number
of dice: each recursive call removes exactly one die, so `getAllMoveSets`
(which passes fuel equal to the dice count) never reaches the fuel-exhausted
branch. -/
lemma gams_fuel_stable : ∀ (L : Nat) (dice : List Int), dice.length = L →
    ∀ (n : Nat) (spots : List Int) (jail : Jail) (side : Side), L ≤ n →
    gams n spots jail side dice = gams L spots jail side dice := by
  intro L
  induction L using Nat.strong_induction_on with
  | _ L IH =>
    intro dice hL n spots jail side hn
    cases dice with
    | nil =>
      cases n <;> cases hL <;> rfl
    | cons d ds =>
      obtain rfl : L = ds.length + 1 := by simpa using hL.symm
      cases n with
      | zero => omega
      | succ m =>
        simp only [gams]
        by_cases hss : startSpotsOf spots side = []
        · rw [if_pos hss, if_pos hss]
        · rw [if_neg hss, if_neg hss]
          apply foldlM_congr
          intro startSpot hmemS acc
          apply foldlM_congr
          intro p hmemP acc2
          have hlen := getDieAndOtherDice_length (d :: ds) p hmemP
          cases hmk : makeMove spots jail ⟨side, startSpot, p.1⟩ with
          | error e => cases e <;> rfl
          | ok st =>
            obtain ⟨ns, nj⟩ := st
            have e1 : gams m ns nj side p.2 = gams p.2.length ns nj side p.2 :=
              IH p.2.length (by omega) p.2 rfl m ns nj side (by omega)
            have e2 : gams ds.length ns nj side p.2 = gams p.2.length ns nj side p.2 :=
              IH p.2.length (by omega) p.2 rfl ds.length ns nj side (by omega)
            dsimp only
            rw [e1, e2]
